import Mathlib

/-!
Shallow embedding of the guitar-DSP pitch-analysis core
(YIN / MPM / Hybrid detectors and the pitch stabilizers).

Floating-point samples and all derived quantities are modelled as exact
rationals.  A float division whose divisor is exactly zero has no finite
result (IEEE gives ±inf or NaN); such paths are made explicit with an
`Option`/outcome constructor instead of Lean's junk value `x / 0 = 0`.
Buffer reads whose index is in bounds by construction use a total read
(`bufAt`); the one loop whose C++ index computation can go out of bounds
(size_t underflow in MPM peak picking) is modelled with an explicit
out-of-bounds outcome.
-/

/-- Embeds `PitchResult { float frequency; float confidence; }`. -/
structure PitchResult where
  frequency : ℚ
  confidence : ℚ
deriving DecidableEq, Repr

/-- Embeds `YinPitchDetector::Config` (threshold 0.15, minFrequency 80, maxFrequency 1200 by default). -/
structure YinPitchDetectorConfig where
  threshold : ℚ := 3/20
  minFrequency : ℚ := 80
  maxFrequency : ℚ := 1200
deriving DecidableEq, Repr

/-- Embeds `MpmPitchDetector::Config`. -/
structure MpmPitchDetectorConfig where
  threshold : ℚ := 93/100
  minFrequency : ℚ := 80
  maxFrequency : ℚ := 1200
  cutoff : ℚ := 97/100
  smallCutoff : ℚ := 1/2
deriving DecidableEq, Repr

/-- Embeds `HybridPitchDetectorConfig`. -/
structure HybridPitchDetectorConfig where
  yinConfidenceThreshold : ℚ := 4/5
  enableHarmonicRejection : Bool := true
  harmonicTolerance : ℚ := 1/20
  yinConfig : YinPitchDetectorConfig := {}
  mpmConfig : MpmPitchDetectorConfig := {}
deriving DecidableEq, Repr

/-- Total read of an audio buffer; every use below has an in-bounds index. -/
def bufAt (buffer : List ℚ) (i : Nat) : ℚ := buffer.getD i 0

/-- Models `static_cast<size_t>(a / b)` for nonnegative float quotients (truncation = floor). -/
def castTrunc (a b : ℚ) : Nat := ⌊a / b⌋.toNat

/-! ## YIN detector (`YinPitchDetector.cpp`) -/

/-- Capacity of the pre-allocated `yinBuffer`: `maxExpectedFrames / 2 = 4096 / 2`. -/
def yinBufferCapacity : Nat := 2048

/-- Step 1, difference function: `d(τ) = Σ_{i=0..H-1} (x[i] − x[i+τ])²`. -/
def yinDiff (buffer : List ℚ) (H tau : Nat) : ℚ :=
  (((List.range H).map fun i =>
    (bufAt buffer i - bufAt buffer (i + tau)) * (bufAt buffer i - bufAt buffer (i + tau)))).sum

/-- Running sum used by step 2: `S(τ) = Σ_{k=1..τ} d(k)` (includes `d(τ)` itself,
exactly as the in-place loop accumulates before normalizing). -/
def yinRunningSum (buffer : List ℚ) (H tau : Nat) : ℚ :=
  (((List.range tau).map fun k => yinDiff buffer H (k + 1))).sum

/-- Step 2, cumulative mean normalized difference function:
`d'(0) = 1`; `d'(τ) = d(τ)·τ / S(τ)` when `S(τ) ≠ 0`, else `1`. -/
def yinCmndf (buffer : List ℚ) (H tau : Nat) : ℚ :=
  if tau = 0 then 1
  else if yinRunningSum buffer H tau ≠ 0 then
    yinDiff buffer H tau * tau / yinRunningSum buffer H tau
  else 1

/-- Body of the step-3 while loop, structurally recursive on the number
`maxTau - tau` of iterations that remain. -/
def yinScanFuel (cfg : YinPitchDetectorConfig) (buffer : List ℚ) (H : Nat) :
    Nat → Nat → Option Nat
  | 0, _ => none
  | fuel + 1, tau =>
    if yinCmndf buffer H tau < cfg.threshold then some tau
    else yinScanFuel cfg buffer H fuel (tau + 1)

/-- Step 3, the absolute-threshold scan `while (tau < maxTau) { if d'(τ) < threshold … ++tau }`:
first `τ` in `[tau, maxTau)` whose CMNDF is below the threshold (the loop runs
exactly `maxTau - tau` times when nothing crosses). -/
def yinScan (cfg : YinPitchDetectorConfig) (buffer : List ℚ) (H maxTau tau : Nat) : Option Nat :=
  yinScanFuel cfg buffer H (maxTau - tau) tau

/-- Step 4, parabolic interpolation: `betterTau = τ + (s2−s0)/(2(2s1−s2−s0))` when
`0 < τ < H−1`, else the integer `τ`.  `none` models the non-finite float produced
when the denominator is exactly zero (the code divides unguarded). -/
def yinInterp (buffer : List ℚ) (H tau : Nat) : Option ℚ :=
  if 0 < tau ∧ tau < H - 1 then
    let s0 := yinCmndf buffer H (tau - 1)
    let s1 := yinCmndf buffer H tau
    let s2 := yinCmndf buffer H (tau + 1)
    if 2 * (2 * s1 - s2 - s0) = 0 then none
    else some ((tau : ℚ) + (s2 - s0) / (2 * (2 * s1 - s2 - s0)))
  else some (tau : ℚ)

/-- Outcome of `YinPitchDetector::Detect`.  `divByZero` marks the path where a float
division by exactly zero makes the returned frequency non-finite / ill-defined. -/
inductive YinOutcome where
  | divByZero : YinOutcome
  | noPitch : YinOutcome
  | pitch : PitchResult → YinOutcome
deriving DecidableEq, Repr

/-- Embeds `YinPitchDetector::Detect` (guards, tau range, capacity check, steps 1–4, outputs). -/
def YinPitchDetector.Detect (cfg : YinPitchDetectorConfig) (buffer : List ℚ)
    (sampleRate : ℚ) : YinOutcome :=
  if buffer = [] ∨ sampleRate ≤ 0 then .noPitch
  else
    let minTau := castTrunc sampleRate cfg.maxFrequency
    let maxTau := castTrunc sampleRate cfg.minFrequency
    let H := buffer.length / 2
    if maxTau ≥ H then .noPitch
    else if H > yinBufferCapacity then .noPitch
    else
      match yinScan cfg buffer H maxTau minTau with
      | none => .noPitch
      | some tau =>
        match yinInterp buffer H tau with
        | none => .divByZero
        | some betterTau =>
          if betterTau = 0 then .divByZero
          else .pitch ⟨sampleRate / betterTau, 1 - yinCmndf buffer H tau⟩

/-! ## MPM detector (`MpmPitchDetector.cpp`) -/

/-- Autocorrelation `ACF(τ) = Σ_{j=0..H-1} x[j]·x[j+τ]` (`ComputeNSDF`, first loop). -/
def mpmAcf (buffer : List ℚ) (H tau : Nat) : ℚ :=
  (((List.range H).map fun j => bufAt buffer j * bufAt buffer (j + tau))).sum

/-- Normalizer `r(τ) = Σ_{j} x[j]² + Σ_{j} x[j+τ]²` (`ComputeNSDF`, second loop). -/
def mpmR (buffer : List ℚ) (H tau : Nat) : ℚ :=
  (((List.range H).map fun j => bufAt buffer j * bufAt buffer j)).sum +
  (((List.range H).map fun j => bufAt buffer (j + tau) * bufAt buffer (j + tau))).sum

/-- NSDF `n(τ) = 2·ACF(τ)/r(τ)` when `r(τ) > 0`, else `0` (`ComputeNSDF`, third loop). -/
def mpmNsdf (buffer : List ℚ) (H tau : Nat) : ℚ :=
  if mpmR buffer H tau > 0 then 2 * mpmAcf buffer H tau / mpmR buffer H tau else 0

/-- The `nsdfBuffer` contents after `ComputeNSDF` on a frame with half-size `H`. -/
def mpmNsdfList (buffer : List ℚ) (H : Nat) : List ℚ :=
  (List.range H).map (mpmNsdf buffer H)

/-- Positive-going zero crossings of the NSDF: indices `i ∈ [1, H)` with
`n[i−1] ≤ 0 < n[i]` (`FindPeaks`, first loop). -/
def mpmZeroCrossings (nsdfv : List ℚ) : List Nat :=
  ((List.range' 1 (nsdfv.length - 1)).filter fun i =>
    decide (bufAt nsdfv (i - 1) ≤ 0) && decide (0 < bufAt nsdfv i))

/-- Scan for the maximum of the NSDF over `[start+1, e)`, keeping the first
maximum on ties (`if (nsdf[j] > maxVal)` uses strict `>`). -/
def mpmRegionMax (nsdfv : List ℚ) (start e : Nat) : Nat × ℚ :=
  (List.range' (start + 1) (e - (start + 1))).foldl
    (fun acc j => if bufAt nsdfv j > acc.2 then (j, bufAt nsdfv j) else acc)
    (start, bufAt nsdfv start)

/-- Embeds `MpmPitchDetector::FindPeaks`.  The C++ loop bound is `zeroCrossings.size() - 1`
computed in `size_t`: when there are no zero crossings it wraps around to
`SIZE_MAX`, the loop body runs, and `zeroCrossings[0]` is read out of bounds on an
empty vector.  That path is modelled as `none`; with at least one crossing every
index the loop touches is in bounds and the peak list is returned. -/
def MpmPitchDetector.FindPeaks (cfg : MpmPitchDetectorConfig) (nsdfv : List ℚ) :
    Option (List Nat) :=
  let zc := mpmZeroCrossings nsdfv
  if zc = [] then none
  else some ((List.range (zc.length - 1)).filterMap fun i =>
    if (mpmRegionMax nsdfv (zc.getD i 0) (zc.getD (i + 1) 0)).2 ≥ cfg.threshold
    then some (mpmRegionMax nsdfv (zc.getD i 0) (zc.getD (i + 1) 0)).1 else none)

/-- Peak selection: start from `peaks[0]`, keep the strictly greater NSDF value
(first-found on ties).  Returns `(maxTauPeak, maxValue)`. -/
def mpmBestPeak (nsdfv : List ℚ) (peaks : List Nat) : Nat × ℚ :=
  peaks.foldl
    (fun acc p => if bufAt nsdfv p > acc.2 then (p, bufAt nsdfv p) else acc)
    (peaks.headD 0, bufAt nsdfv (peaks.headD 0))

/-- Embeds `MpmPitchDetector::ParabolicInterpolation` over the current `nsdfBuffer`.
Endpoint taus fall back to the integer `τ`; otherwise the code divides by
`2(2s1−s2−s0)` unguarded, so a zero denominator has no finite result (`none`). -/
def MpmPitchDetector.ParabolicInterpolation (nsdfv : List ℚ) (tau : Int) : Option ℚ :=
  if tau ≤ 0 ∨ tau ≥ (nsdfv.length : Int) - 1 then some (tau : ℚ)
  else
    let s0 := bufAt nsdfv (tau - 1).toNat
    let s1 := bufAt nsdfv tau.toNat
    let s2 := bufAt nsdfv (tau + 1).toNat
    if 2 * (2 * s1 - s2 - s0) = 0 then none
    else some ((tau : ℚ) + (s2 - s0) / (2 * (2 * s1 - s2 - s0)))

/-- Outcome of `MpmPitchDetector::Detect`.  `oob` is the out-of-bounds vector read
in `FindPeaks`; `divByZero` the non-finite result of an unguarded float division. -/
inductive MpmOutcome where
  | oob : MpmOutcome
  | divByZero : MpmOutcome
  | noPitch : MpmOutcome
  | pitch : PitchResult → MpmOutcome
deriving DecidableEq, Repr

/-- Embeds `MpmPitchDetector::Detect`.  The mutable state is the common length of the
three scratch vectors (`nsdfBuffer` / `acfBuffer` / `rBuffer`, all resized
together); the returned `Nat` is that length after the call, which changes
exactly when the code executes the `resize` branch. -/
def MpmPitchDetector.Detect (cfg : MpmPitchDetectorConfig) (scratchSize : Nat)
    (buffer : List ℚ) (sampleRate : ℚ) : Nat × MpmOutcome :=
  if buffer = [] ∨ sampleRate ≤ 0 then (scratchSize, .noPitch)
  else
    let maxTau := castTrunc sampleRate cfg.minFrequency
    if maxTau ≥ buffer.length / 2 then (scratchSize, .noPitch)
    else
      let halfSize := buffer.length / 2
      let scratchSize' := if scratchSize ≠ halfSize then halfSize else scratchSize
      let nsdfv := mpmNsdfList buffer halfSize
      match MpmPitchDetector.FindPeaks cfg nsdfv with
      | none => (scratchSize', .oob)
      | some peaks =>
        if peaks = [] then (scratchSize', .noPitch)
        else
          let best := mpmBestPeak nsdfv peaks
          match MpmPitchDetector.ParabolicInterpolation nsdfv (best.1 : Int) with
          | none => (scratchSize', .divByZero)
          | some refinedTau =>
            if refinedTau ≤ 0 then (scratchSize', .noPitch)
            else (scratchSize', .pitch ⟨sampleRate / refinedTau, best.2⟩)

/-! ## Hybrid detector (`HybridPitchDetector.cpp`) -/

/-- The constructor's fine-tuning of the nested YIN configuration:
`threshold = 0.10`, `minFrequency = 80`, `maxFrequency = 1200`. -/
def hybridTunedYinConfig (config : HybridPitchDetectorConfig) : YinPitchDetectorConfig :=
  { config.yinConfig with threshold := 1/10, minFrequency := 80, maxFrequency := 1200 }

/-- Embeds `HybridPitchDetector::IsHarmonic`: `|freq1 − n·freq2| ≤ n·freq2·harmonicTolerance`. -/
def HybridPitchDetector.IsHarmonic (cfg : HybridPitchDetectorConfig)
    (freq1 freq2 : ℚ) (harmonicNumber : Nat) : Bool :=
  let expectedHarmonic := freq2 * (harmonicNumber : ℚ)
  let diff := |freq1 - expectedHarmonic|
  let tolerance := expectedHarmonic * cfg.harmonicTolerance
  decide (diff ≤ tolerance)

/-- Embeds `HybridPitchDetector::ApplyHarmonicRejection`: try `f/2`, `f/3`, `f/4` in that
order; accept the first lying in `[80, 400]` that passes `IsHarmonic`. -/
def HybridPitchDetector.ApplyHarmonicRejection (cfg : HybridPitchDetectorConfig)
    (frequency : ℚ) : ℚ :=
  let fundamental2x := frequency / 2
  if 80 ≤ fundamental2x ∧ fundamental2x ≤ 400 ∧
      HybridPitchDetector.IsHarmonic cfg frequency fundamental2x 2 = true then
    fundamental2x
  else
    let fundamental3x := frequency / 3
    if 80 ≤ fundamental3x ∧ fundamental3x ≤ 400 ∧
        HybridPitchDetector.IsHarmonic cfg frequency fundamental3x 3 = true then
      fundamental3x
    else
      let fundamental4x := frequency / 4
      if 80 ≤ fundamental4x ∧ fundamental4x ≤ 400 ∧
          HybridPitchDetector.IsHarmonic cfg frequency fundamental4x 4 = true then
        fundamental4x
      else frequency

/-- The arbitration half of `HybridPitchDetector::Detect` (lines picking between
the YIN and MPM sub-results).  The boolean records whether `mpmDetector->Detect`
was invoked (only the `else` branch calls it). -/
def hybridSelect (cfg : HybridPitchDetectorConfig)
    (yinResult mpmResult : Option PitchResult) : Option PitchResult × Bool :=
  match yinResult with
  | some y =>
    if y.confidence ≥ cfg.yinConfidenceThreshold then (some y, false)
    else
      match mpmResult with
      | some m => (some m, true)
      | none => (some y, true)
  | none =>
    match mpmResult with
    | some m => (some m, true)
    | none => (none, true)

/-- Embeds `HybridPitchDetector::Detect` after the sub-detectors have produced
`yinResult` and `mpmResult`: arbitration followed by the harmonic-rejection
frequency overwrite (applied only when the corrected frequency differs by more
than 0.1 Hz; the confidence field is copied through). -/
def hybridDetectWith (cfg : HybridPitchDetectorConfig)
    (yinResult mpmResult : Option PitchResult) : Option PitchResult × Bool :=
  let sel := hybridSelect cfg yinResult mpmResult
  match sel.1 with
  | some r =>
    if cfg.enableHarmonicRejection then
      let correctedFreq := HybridPitchDetector.ApplyHarmonicRejection cfg r.frequency
      if |correctedFreq - r.frequency| > 1/10 then
        (some ⟨correctedFreq, r.confidence⟩, sel.2)
      else (some r, sel.2)
    else (some r, sel.2)
  | none => (none, sel.2)

/-! ## Stabilizers (`PitchStabilizer.cpp`) -/

/-- Embeds `ExponentialMovingAverage::Config`. -/
structure EMAConfig where
  alpha : ℚ := 3/10
deriving DecidableEq, Repr

/-- State of `ExponentialMovingAverage`. -/
structure EMAState where
  config : EMAConfig
  stabilized : PitchResult
  initialized : Bool
deriving DecidableEq, Repr

/-- The `ExponentialMovingAverage` constructor: `stabilized{0,0}`, `initialized(false)`. -/
def ExponentialMovingAverage.init (config : EMAConfig) : EMAState :=
  ⟨config, ⟨0, 0⟩, false⟩

/-- Embeds `ExponentialMovingAverage::Update`. -/
def ExponentialMovingAverage.Update (s : EMAState) (result : PitchResult) : EMAState :=
  if s.initialized = false then { s with stabilized := result, initialized := true }
  else
    { s with stabilized :=
        ⟨s.config.alpha * result.frequency + (1 - s.config.alpha) * s.stabilized.frequency,
         s.config.alpha * result.confidence + (1 - s.config.alpha) * s.stabilized.confidence⟩ }

/-- Embeds `ExponentialMovingAverage::GetStabilized`. -/
def ExponentialMovingAverage.GetStabilized (s : EMAState) : PitchResult := s.stabilized

/-- Embeds `ExponentialMovingAverage::Reset`. -/
def ExponentialMovingAverage.Reset (s : EMAState) : EMAState :=
  { s with stabilized := ⟨0, 0⟩, initialized := false }

/-- Embeds `MedianFilter::Config`. -/
structure MedianFilterConfig where
  windowSize : Nat := 5
deriving DecidableEq, Repr

/-- State of `MedianFilter`: ring buffer plus write index and saturating count. -/
structure MedianFilterState where
  config : MedianFilterConfig
  window : List PitchResult
  writeIndex : Nat
  sampleCount : Nat
deriving DecidableEq, Repr

/-- The `MedianFilter` constructor: window pre-sized to `windowSize` with `{0,0}`. -/
def MedianFilter.init (config : MedianFilterConfig) : MedianFilterState :=
  ⟨config, List.replicate config.windowSize ⟨0, 0⟩, 0, 0⟩

/-- Embeds `MedianFilter::Update`: write at `writeIndex`, advance modulo `windowSize`,
saturate `sampleCount` at `windowSize`. -/
def MedianFilter.Update (s : MedianFilterState) (result : PitchResult) : MedianFilterState :=
  { s with
    window := s.window.set s.writeIndex result
    writeIndex := (s.writeIndex + 1) % s.config.windowSize
    sampleCount :=
      if s.sampleCount < s.config.windowSize then s.sampleCount + 1 else s.sampleCount }

/-- Ascending sort of the copied field values (`std::sort`). -/
def sortQ (l : List ℚ) : List ℚ := l.insertionSort (· ≤ ·)

/-- Embeds `MedianFilter::ComputeMedian`: sorted copies of the first `sampleCount`
entries of the ring, per field; middle element for odd counts, mean of the two
middle elements (`* 0.5f`) for even counts; `{0,0}` when the count is zero. -/
def MedianFilter.ComputeMedian (s : MedianFilterState) : PitchResult :=
  if s.sampleCount = 0 then ⟨0, 0⟩
  else
    let frequencies := sortQ (((s.window.take s.sampleCount).map PitchResult.frequency))
    let confidences := sortQ (((s.window.take s.sampleCount).map PitchResult.confidence))
    let midIndex := s.sampleCount / 2
    if s.sampleCount % 2 = 0 then
      ⟨(frequencies.getD (midIndex - 1) 0 + frequencies.getD midIndex 0) * (1/2),
       (confidences.getD (midIndex - 1) 0 + confidences.getD midIndex 0) * (1/2)⟩
    else
      ⟨frequencies.getD midIndex 0, confidences.getD midIndex 0⟩

/-- Embeds `MedianFilter::GetStabilized`. -/
def MedianFilter.GetStabilized (s : MedianFilterState) : PitchResult :=
  MedianFilter.ComputeMedian s

/-- Embeds `MedianFilter::Reset`: zero the indices and `std::fill` the window. -/
def MedianFilter.Reset (s : MedianFilterState) : MedianFilterState :=
  { s with
    writeIndex := 0
    sampleCount := 0
    window := List.replicate s.window.length ⟨0, 0⟩ }

/-- Embeds `HybridStabilizer::Config`. -/
structure HybridStabilizerConfig where
  baseAlpha : ℚ := 3/10
  windowSize : Nat := 5
deriving DecidableEq, Repr

/-- State of `HybridStabilizer`. -/
structure HybridStabilizerState where
  config : HybridStabilizerConfig
  medianFilter : MedianFilterState
  emaResult : PitchResult
  initialized : Bool
deriving DecidableEq, Repr

/-- The `HybridStabilizer` constructor. -/
def HybridStabilizer.init (config : HybridStabilizerConfig) : HybridStabilizerState :=
  ⟨config, MedianFilter.init ⟨config.windowSize⟩, ⟨0, 0⟩, false⟩

/-- Models `std::clamp(v, lo, hi)`. -/
def stdClamp (v lo hi : ℚ) : ℚ := if v < lo then lo else if hi < v then hi else v

/-- Embeds `HybridStabilizer::ComputeAdaptiveAlpha`: `clamp(baseAlpha·(1+confidence), 0, 1)`. -/
def HybridStabilizer.ComputeAdaptiveAlpha (cfg : HybridStabilizerConfig)
    (confidence : ℚ) : ℚ :=
  stdClamp (cfg.baseAlpha * (1 + confidence)) 0 1

/-- Embeds `HybridStabilizer::Update`: median stage, then confidence-adaptive EMA stage. -/
def HybridStabilizer.Update (s : HybridStabilizerState) (result : PitchResult) :
    HybridStabilizerState :=
  let medianFilter' := MedianFilter.Update s.medianFilter result
  let medianFiltered := MedianFilter.GetStabilized medianFilter'
  if s.initialized = false then
    { s with medianFilter := medianFilter', emaResult := medianFiltered, initialized := true }
  else
    let adaptiveAlpha := HybridStabilizer.ComputeAdaptiveAlpha s.config medianFiltered.confidence
    { s with
      medianFilter := medianFilter'
      emaResult :=
        ⟨adaptiveAlpha * medianFiltered.frequency + (1 - adaptiveAlpha) * s.emaResult.frequency,
         adaptiveAlpha * medianFiltered.confidence + (1 - adaptiveAlpha) * s.emaResult.confidence⟩ }

/-- Embeds `HybridStabilizer::GetStabilized`. -/
def HybridStabilizer.GetStabilized (s : HybridStabilizerState) : PitchResult := s.emaResult

/-- Embeds `HybridStabilizer::Reset`. -/
def HybridStabilizer.Reset (s : HybridStabilizerState) : HybridStabilizerState :=
  { s with
    medianFilter := MedianFilter.Reset s.medianFilter
    emaResult := ⟨0, 0⟩
    initialized := false }

/-- Folding a whole update sequence into a median filter. -/
def MedianFilter.applyUpdates (s : MedianFilterState) (us : List PitchResult) :
    MedianFilterState :=
  us.foldl MedianFilter.Update s

/-! ## Spec-side definitions (refinement targets, written from the spec's words) -/

/-- Spec-side harmonic rejection: for `k ∈ {2, 3, 4}` in that order, accept the
first `f/k ∈ [80, 400]` with `|f − k·(f/k)| ≤ tolerance·k·(f/k)`, else keep `f`. -/
def harmonicRejectionSpec (cfg : HybridPitchDetectorConfig) (f : ℚ) : ℚ :=
  match ([2, 3, 4] : List ℕ).find? (fun k =>
      decide (80 ≤ f / k ∧ f / k ≤ 400 ∧
        |f - (k : ℚ) * (f / k)| ≤ cfg.harmonicTolerance * ((k : ℚ) * (f / k)))) with
  | some k => f / k
  | none => f

/-- The `n` most recently written samples of an update sequence. -/
def lastSamples (us : List PitchResult) (n : Nat) : List PitchResult :=
  us.drop (us.length - n)

/-- Spec-side median of a list of values: middle sorted element for odd lengths,
mean of the two middle sorted elements for even lengths. -/
def medianOfValues (l : List ℚ) : ℚ :=
  if l.length % 2 = 0 then
    (sortQ l).getD (l.length / 2 - 1) 0 * (1/2) + (sortQ l).getD (l.length / 2) 0 * (1/2)
  else (sortQ l).getD (l.length / 2) 0

/-- Spec-side stabilized output: the median, independently for `frequency` and
`confidence`, of exactly the `sampleCount = min (#updates) windowSize` most
recently written samples; the sentinel `{0, 0}` when no sample was written. -/
def medianOfLastSamplesSpec (cfg : MedianFilterConfig) (us : List PitchResult) : PitchResult :=
  let n := min us.length cfg.windowSize
  if n = 0 then ⟨0, 0⟩
  else
    ⟨medianOfValues ((lastSamples us n).map PitchResult.frequency),
     medianOfValues ((lastSamples us n).map PitchResult.confidence)⟩

/-- A 10-sample alternating test frame (period-2 square wave). -/
def altBuffer : List ℚ := [1, -1, 1, -1, 1, -1, 1, -1, 1, -1]

/-- An MPM configuration with a narrow frequency range `[30, 40]` Hz and
threshold `0.5`. -/
def mpmNarrowConfig : MpmPitchDetectorConfig := ⟨1/2, 30, 40, 97/100, 1/2⟩

/-- An 8-sample alternating test frame. -/
def altBuffer8 : List ℚ := [1, -1, 1, -1, 1, -1, 1, -1]

/-- A YIN configuration with frequency range `[2.5, 4]` Hz (made small so the
8-sample frame is long enough). -/
def yinNarrowConfig : YinPitchDetectorConfig := ⟨3/20, 5/2, 4⟩

/-- Proof scaffolding: the ring-buffer invariant of `MedianFilter` after an
update sequence `us`.  Under-filled, the window is the updates followed by the
constructor padding; once full, rotating the window by the write index yields
the last `windowSize` updates in order. -/
def MedianInv (cfg : MedianFilterConfig) (us : List PitchResult)
    (s : MedianFilterState) : Prop :=
  s.config = cfg ∧
  s.window.length = cfg.windowSize ∧
  s.sampleCount = min us.length cfg.windowSize ∧
  s.writeIndex = us.length % cfg.windowSize ∧
  ((us.length < cfg.windowSize ∧
      s.window = us ++ List.replicate (cfg.windowSize - us.length) ⟨0, 0⟩) ∨
    (cfg.windowSize ≤ us.length ∧
      s.window.rotate s.writeIndex = us.drop (us.length - cfg.windowSize)))

/-! ## Claim theorems -/

/-- Writing at the ring position `wi` and advancing the rotation by one is the
same as dropping the oldest element and appending the new one. -/
theorem rotate_set_succ {α : Type} (w : List α) (wi : Nat) (r : α) (h : wi < w.length) :
    (w.set wi r).rotate ((wi + 1) % w.length) = (w.rotate wi).drop 1 ++ [r] := by
  have hset : w.set wi r = w.take wi ++ r :: w.drop (wi + 1) := List.set_eq_take_cons_drop r h
  have htklen : (w.take wi).length = wi := by
    rw [List.length_take]; omega
  by_cases hend : wi + 1 = w.length
  · have hmod : (wi + 1) % w.length = 0 := by rw [hend, Nat.mod_self]
    rw [hmod, List.rotate_zero]
    have hrot : w.rotate wi = w.drop wi ++ w.take wi :=
      List.rotate_eq_drop_append_take (by omega)
    have hdlen : (w.drop wi).length = 1 := by
      rw [List.length_drop]; omega
    rw [hrot, List.drop_append_eq_append_drop, hdlen, List.drop_drop]
    rw [hset, hend, List.drop_length]
    simp
  · have hlt : wi + 1 < w.length := by omega
    have hmod : (wi + 1) % w.length = wi + 1 := Nat.mod_eq_of_lt hlt
    rw [hmod]
    rw [List.rotate_eq_drop_append_take
      (by rw [List.length_set]; omega : wi + 1 ≤ (w.set wi r).length)]
    have hdropset : (w.set wi r).drop (wi + 1) = w.drop (wi + 1) := by
      rw [List.drop_set]
      simp
    have htakeset : (w.set wi r).take (wi + 1) = w.take wi ++ [r] := by
      rw [hset, List.take_append_eq_append_take, htklen,
        List.take_of_length_le (by rw [htklen]; omega : (w.take wi).length ≤ wi + 1)]
      simp
    rw [hdropset, htakeset]
    rw [List.rotate_eq_drop_append_take (by omega : wi ≤ w.length),
      List.drop_append_eq_append_drop, List.drop_drop, List.length_drop]
    have h10 : 1 - (w.length - wi) = 0 := by omega
    rw [h10, List.drop_zero]
    simp [List.append_assoc]

/-- The median-filter ring-buffer invariant holds after every update sequence. -/
theorem medianFilter_invariant (cfg : MedianFilterConfig) (hW : 1 ≤ cfg.windowSize)
    (us : List PitchResult) :
    MedianInv cfg us (MedianFilter.applyUpdates (MedianFilter.init cfg) us) := by
  induction us using List.reverseRecOn with
  | nil =>
    simp only [MedianInv]
    refine ⟨rfl, List.length_replicate _ _, by simp [MedianFilter.applyUpdates, MedianFilter.init],
      by simp [MedianFilter.applyUpdates, MedianFilter.init], Or.inl ⟨by simpa using hW, by
        simp [MedianFilter.applyUpdates, MedianFilter.init]⟩⟩
  | append_singleton us r ih =>
    simp only [MedianInv] at ih ⊢
    have happ : MedianFilter.applyUpdates (MedianFilter.init cfg) (us ++ [r]) =
        MedianFilter.Update (MedianFilter.applyUpdates (MedianFilter.init cfg) us) r := by
      simp [MedianFilter.applyUpdates, List.foldl_append]
    rw [happ]
    generalize hsdef : MedianFilter.applyUpdates (MedianFilter.init cfg) us = s at ih
    obtain ⟨hcfg, hlen, hcnt, hwi, hwin⟩ := ih
    refine ⟨by simp [MedianFilter.Update, hcfg], by simp [MedianFilter.Update, hlen], ?_, ?_, ?_⟩
    · simp only [MedianFilter.Update]
      rw [hcfg, hcnt, List.length_append]
      simp only [List.length_cons, List.length_nil]
      split <;> omega
    · simp only [MedianFilter.Update]
      rw [hcfg, hwi, List.length_append]
      simp only [List.length_cons, List.length_nil]
      rw [Nat.mod_add_mod]
    · simp only [MedianFilter.Update]
      rw [hcfg, hwi]
      rcases hwin with ⟨hlt, hwnd⟩ | ⟨hge, hrot⟩
      · by_cases hfull : us.length + 1 < cfg.windowSize
        · left
          refine ⟨by rw [List.length_append]; simpa using hfull, ?_⟩
          rw [hwnd, Nat.mod_eq_of_lt hlt,
            List.set_append_right _ _ (le_refl us.length), Nat.sub_self]
          have hk : cfg.windowSize - us.length = (cfg.windowSize - (us.length + 1)) + 1 := by
            omega
          rw [hk, List.replicate_succ, List.set_cons_zero, List.length_append]
          simp [List.append_assoc]
        · right
          have hWeq : us.length + 1 = cfg.windowSize := by omega
          constructor
          · rw [List.length_append]; simp; omega
          · rw [hwnd, Nat.mod_eq_of_lt hlt, hWeq, Nat.mod_self, List.rotate_zero,
              List.set_append_right _ _ (le_refl us.length), Nat.sub_self]
            have hk : cfg.windowSize - us.length = 1 := by omega
            rw [hk, List.replicate_succ, List.set_cons_zero, List.length_append]
            simp [hWeq]
      · right
        constructor
        · rw [List.length_append]; simp; omega
        · have hwiW : us.length % cfg.windowSize < cfg.windowSize :=
            Nat.mod_lt _ (by omega)
          have hmain := rotate_set_succ s.window (us.length % cfg.windowSize) r
            (by rw [hlen]; exact hwiW)
          rw [hlen] at hmain
          rw [hwi] at hrot
          rw [hmain, hrot, List.length_append]
          simp only [List.length_cons, List.length_nil]
          rw [List.drop_append_eq_append_drop]
          have h1 : us.length + 1 - cfg.windowSize - us.length = 0 := by omega
          have h2 : us.length + 1 - cfg.windowSize = (us.length - cfg.windowSize) + 1 := by
            omega
          rw [h1, h2, List.drop_zero, ← List.drop_drop]

/-- NSDF of the alternating test frame. -/
theorem mpmNsdfList_altBuffer : mpmNsdfList altBuffer 5 = [1, -1, 1, -1, 1] := by
  have hr : List.range 5 = [0, 1, 2, 3, 4] := rfl
  have h0 : mpmNsdf altBuffer 5 0 = 1 := by
    norm_num [mpmNsdf, mpmAcf, mpmR, hr, altBuffer, bufAt]
  have h1 : mpmNsdf altBuffer 5 1 = -1 := by
    norm_num [mpmNsdf, mpmAcf, mpmR, hr, altBuffer, bufAt]
  have h2 : mpmNsdf altBuffer 5 2 = 1 := by
    norm_num [mpmNsdf, mpmAcf, mpmR, hr, altBuffer, bufAt]
  have h3 : mpmNsdf altBuffer 5 3 = -1 := by
    norm_num [mpmNsdf, mpmAcf, mpmR, hr, altBuffer, bufAt]
  have h4 : mpmNsdf altBuffer 5 4 = 1 := by
    norm_num [mpmNsdf, mpmAcf, mpmR, hr, altBuffer, bufAt]
  simp [mpmNsdfList, hr, h0, h1, h2, h3, h4]

/-- Full MPM run on the alternating frame with the narrow configuration:
the scratch buffers resize from 0 to 5 and a pitch of 50 Hz with confidence 1
is returned. -/
theorem mpmDetect_altBuffer_eval :
    MpmPitchDetector.Detect mpmNarrowConfig 0 altBuffer 100 =
      (5, MpmOutcome.pitch ⟨50, 1⟩) := by
  have hzc : mpmZeroCrossings [1, -1, 1, -1, 1] = [2, 4] := by
    have hr : List.range' 1 4 = [1, 2, 3, 4] := rfl
    norm_num [mpmZeroCrossings, hr, bufAt, List.filter]
  have hfp : MpmPitchDetector.FindPeaks mpmNarrowConfig [1, -1, 1, -1, 1] = some [2] := by
    have hr1 : List.range 1 = [0] := rfl
    have hrm : mpmRegionMax [1, -1, 1, -1, 1] 2 4 = (2, 1) := by
      have hr' : List.range' 3 1 = [3] := rfl
      norm_num [mpmRegionMax, hr', bufAt]
    simp [MpmPitchDetector.FindPeaks, hzc, hr1, hrm, mpmNarrowConfig, List.filterMap]
    norm_num
  have hbp : mpmBestPeak [1, -1, 1, -1, 1] [2] = (2, 1) := by
    norm_num [mpmBestPeak, bufAt]
  have hpi : MpmPitchDetector.ParabolicInterpolation [1, -1, 1, -1, 1] 2 = some 2 := by
    have e0 : ((2 : Int) - 1).toNat = 1 := rfl
    have e1 : (2 : Int).toNat = 2 := rfl
    have e2 : ((2 : Int) + 1).toNat = 3 := rfl
    have hb1 : bufAt ([1, -1, 1, -1, 1] : List ℚ) 1 = -1 := rfl
    have hb2 : bufAt ([1, -1, 1, -1, 1] : List ℚ) 2 = 1 := rfl
    have hb3 : bufAt ([1, -1, 1, -1, 1] : List ℚ) 3 = -1 := rfl
    simp only [MpmPitchDetector.ParabolicInterpolation, e0, e1, e2, hb1, hb2, hb3]
    norm_num
  have hmt : castTrunc 100 mpmNarrowConfig.minFrequency = 3 := by
    have hf : ⌊(100 : ℚ) / 30⌋ = (3 : ℤ) := by norm_num
    simp [castTrunc, mpmNarrowConfig, hf]
  have hlen : altBuffer.length / 2 = 5 := rfl
  simp only [MpmPitchDetector.Detect, hmt, hlen, mpmNsdfList_altBuffer, hfp, hbp,
    Nat.cast_ofNat]
  rw [hpi]
  norm_num [altBuffer]
  exact List.cons_ne_nil _ _

/-- The difference function is a sum of squares, hence nonnegative. -/
theorem yinDiff_nonneg (buffer : List ℚ) (H tau : Nat) : 0 ≤ yinDiff buffer H tau := by
  refine List.sum_nonneg ?_
  intro x hx
  simp only [List.mem_map] at hx
  obtain ⟨i, _, rfl⟩ := hx
  exact mul_self_nonneg _

/-- The CMNDF running sum is a sum of nonnegative terms. -/
theorem yinRunningSum_nonneg (buffer : List ℚ) (H tau : Nat) :
    0 ≤ yinRunningSum buffer H tau := by
  refine List.sum_nonneg ?_
  intro x hx
  simp only [List.mem_map] at hx
  obtain ⟨k, _, rfl⟩ := hx
  exact yinDiff_nonneg buffer H (k + 1)

/-- The CMNDF is nonnegative on every branch. -/
theorem yinCmndf_nonneg (buffer : List ℚ) (H tau : Nat) : 0 ≤ yinCmndf buffer H tau := by
  unfold yinCmndf
  split
  · norm_num
  · split
    · exact div_nonneg
        (mul_nonneg (yinDiff_nonneg buffer H tau) (by positivity))
        (yinRunningSum_nonneg buffer H tau)
    · norm_num

/-- Inversion of a successful threshold scan: the returned `τ` lies in
`[t0, t0 + fuel)`, crosses the threshold, and is the first to do so. -/
theorem yinScanFuel_some_spec (cfg : YinPitchDetectorConfig) (buffer : List ℚ) (H : Nat) :
    ∀ fuel t0 tau, yinScanFuel cfg buffer H fuel t0 = some tau →
      t0 ≤ tau ∧ tau < t0 + fuel ∧ yinCmndf buffer H tau < cfg.threshold ∧
      ∀ t, t0 ≤ t → t < tau → ¬ yinCmndf buffer H t < cfg.threshold := by
  intro fuel
  induction fuel with
  | zero => intro t0 tau h; simp [yinScanFuel] at h
  | succ n ih =>
    intro t0 tau h
    simp only [yinScanFuel] at h
    by_cases hc : yinCmndf buffer H t0 < cfg.threshold
    · rw [if_pos hc] at h
      obtain rfl : t0 = tau := by injection h
      exact ⟨le_refl _, by omega, hc, fun t ht1 ht2 => by omega⟩
    · rw [if_neg hc] at h
      obtain ⟨h1, h2, h3, h4⟩ := ih (t0 + 1) tau h
      refine ⟨by omega, by omega, h3, ?_⟩
      intro t ht1 ht2
      rcases eq_or_lt_of_le ht1 with rfl | hlt
      · exact hc
      · exact h4 t (by omega) ht2

/-- A scan over a range where nothing crosses the threshold returns `none`. -/
theorem yinScanFuel_none_of (cfg : YinPitchDetectorConfig) (buffer : List ℚ) (H : Nat) :
    ∀ fuel t0, (∀ t, t0 ≤ t → t < t0 + fuel → ¬ yinCmndf buffer H t < cfg.threshold) →
      yinScanFuel cfg buffer H fuel t0 = none := by
  intro fuel
  induction fuel with
  | zero => intro t0 _; rfl
  | succ n ih =>
    intro t0 hall
    simp only [yinScanFuel]
    rw [if_neg (hall t0 le_rfl (by omega))]
    exact ih (t0 + 1) (fun t ht1 ht2 => hall t (by omega) (by omega))

/-- Inversion of `YinPitchDetector.Detect` on the successful path. -/
theorem yinDetect_pitch_inv (cfg : YinPitchDetectorConfig) (buffer : List ℚ) (sr : ℚ)
    (r : PitchResult) (h : YinPitchDetector.Detect cfg buffer sr = .pitch r) :
    ∃ tau bt,
      yinScan cfg buffer (buffer.length / 2) (castTrunc sr cfg.minFrequency)
        (castTrunc sr cfg.maxFrequency) = some tau ∧
      yinInterp buffer (buffer.length / 2) tau = some bt ∧ bt ≠ 0 ∧
      r = ⟨sr / bt, 1 - yinCmndf buffer (buffer.length / 2) tau⟩ := by
  simp only [YinPitchDetector.Detect] at h
  split at h
  · simp at h
  · split at h
    · simp at h
    · split at h
      · simp at h
      · rcases hs : yinScan cfg buffer (buffer.length / 2) (castTrunc sr cfg.minFrequency)
            (castTrunc sr cfg.maxFrequency) with _ | tau
        · rw [hs] at h; simp at h
        · rw [hs] at h
          simp only [] at h
          rcases hi : yinInterp buffer (buffer.length / 2) tau with _ | bt
          · rw [hi] at h; simp at h
          · rw [hi] at h
            simp only [] at h
            by_cases hb : bt = 0
            · rw [if_pos hb] at h; simp at h
            · rw [if_neg hb] at h
              simp only [YinOutcome.pitch.injEq] at h
              exact ⟨tau, bt, rfl, hi, hb, h.symm⟩

/-- Summed AM–GM-style bound: termwise `2f ≤ g + h` gives `2Σf ≤ Σg + Σh`. -/
theorem sum_two_mul_le (l : List ℕ) (f g h : ℕ → ℚ)
    (hp : ∀ i ∈ l, 2 * f i ≤ g i + h i) :
    2 * ((l.map f).sum) ≤ (l.map g).sum + (l.map h).sum := by
  induction l with
  | nil => simp
  | cons a t ih =>
    simp only [List.map_cons, List.sum_cons]
    have h1 := hp a (List.mem_cons_self a t)
    have h2 := ih (fun i hi => hp i (List.mem_cons_of_mem a hi))
    linarith

/-- Bound `2·ACF(τ) ≤ r(τ)`: the NSDF numerator never exceeds its normalizer. -/
theorem two_mpmAcf_le_mpmR (buffer : List ℚ) (H tau : Nat) :
    2 * mpmAcf buffer H tau ≤ mpmR buffer H tau := by
  unfold mpmAcf mpmR
  exact sum_two_mul_le (List.range H) _ _ _
    (fun j _ => by nlinarith [sq_nonneg (bufAt buffer j - bufAt buffer (j + tau))])

/-- NSDF values never exceed 1. -/
theorem mpmNsdf_le_one (buffer : List ℚ) (H tau : Nat) : mpmNsdf buffer H tau ≤ 1 := by
  unfold mpmNsdf
  split
  · rename_i hr
    rw [div_le_one hr]
    exact two_mpmAcf_le_mpmR buffer H tau
  · norm_num

/-- Every read of the materialized NSDF buffer is at most 1. -/
theorem bufAt_mpmNsdfList_le_one (buffer : List ℚ) (H p : Nat) :
    bufAt (mpmNsdfList buffer H) p ≤ 1 := by
  by_cases hp : p < H
  · simp [bufAt, mpmNsdfList, List.getD_eq_getElem?_getD, List.getElem?_map,
      List.getElem?_range, hp, mpmNsdf_le_one buffer H p]
  · have hn : (List.range H)[p]? = none := List.getElem?_eq_none (by simpa using hp)
    simp [bufAt, mpmNsdfList, List.getD_eq_getElem?_getD, List.getElem?_map, hn]

/-- The pick-max fold reports the NSDF value of the index it returns. -/
theorem foldPick_snd_eq (v : List ℚ) :
    ∀ (l : List Nat) (a : Nat × ℚ), a.2 = bufAt v a.1 →
    (l.foldl (fun acc p => if bufAt v p > acc.2 then (p, bufAt v p) else acc) a).2 =
      bufAt v ((l.foldl (fun acc p => if bufAt v p > acc.2 then (p, bufAt v p) else acc) a).1) := by
  intro l
  induction l with
  | nil => intro a ha; simpa using ha
  | cons b t ih =>
    intro a ha
    simp only [List.foldl_cons]
    by_cases hb : bufAt v b > a.2
    · rw [if_pos hb]
      exact ih _ rfl
    · rw [if_neg hb]
      exact ih a ha

/-- The pick-max fold never decreases the reported value. -/
theorem foldPick_ge (v : List ℚ) :
    ∀ (l : List Nat) (a : Nat × ℚ),
    a.2 ≤ (l.foldl (fun acc p => if bufAt v p > acc.2 then (p, bufAt v p) else acc) a).2 := by
  intro l
  induction l with
  | nil => intro a; simp
  | cons b t ih =>
    intro a
    simp only [List.foldl_cons]
    by_cases hb : bufAt v b > a.2
    · rw [if_pos hb]
      exact le_trans (le_of_lt hb) (ih _)
    · rw [if_neg hb]
      exact ih a

/-- Every retained peak has NSDF value at least the threshold. -/
theorem findPeaks_mem_threshold (cfg : MpmPitchDetectorConfig) (v : List ℚ)
    (peaks : List Nat) (h : MpmPitchDetector.FindPeaks cfg v = some peaks) :
    ∀ p ∈ peaks, cfg.threshold ≤ bufAt v p := by
  simp only [MpmPitchDetector.FindPeaks] at h
  split at h
  · simp at h
  · simp only [Option.some.injEq] at h
    subst h
    intro p hp
    simp only [List.mem_filterMap] at hp
    obtain ⟨i, _, hq⟩ := hp
    split at hq
    · rename_i hge
      simp only [Option.some.injEq] at hq
      subst hq
      calc cfg.threshold
          ≤ (mpmRegionMax v ((mpmZeroCrossings v).getD i 0)
              ((mpmZeroCrossings v).getD (i + 1) 0)).2 := hge
        _ = bufAt v (mpmRegionMax v ((mpmZeroCrossings v).getD i 0)
              ((mpmZeroCrossings v).getD (i + 1) 0)).1 :=
            foldPick_snd_eq v _ _ rfl
    · simp at hq

/-- The head of a nonempty list (via `headD`) is a member. -/
theorem headD_mem_of_ne_nil {α : Type} (l : List α) (d : α) (h : l ≠ []) :
    l.headD d ∈ l := by
  cases l with
  | nil => exact absurd rfl h
  | cons a t => simp

/-- The best-peak value is the NSDF at the chosen index. -/
theorem mpmBestPeak_snd_eq (v : List ℚ) (peaks : List Nat) :
    (mpmBestPeak v peaks).2 = bufAt v (mpmBestPeak v peaks).1 :=
  foldPick_snd_eq v peaks _ rfl

/-- The best-peak value is at least the value at the first peak. -/
theorem mpmBestPeak_ge_head (v : List ℚ) (peaks : List Nat) :
    bufAt v (peaks.headD 0) ≤ (mpmBestPeak v peaks).2 :=
  foldPick_ge v peaks _

/-- Inversion of `MpmPitchDetector::Detect` on the successful path: the
returned confidence is the best retained peak's NSDF value. -/
theorem mpmDetect_pitch_inv (cfg : MpmPitchDetectorConfig) (st : Nat)
    (buffer : List ℚ) (sr : ℚ) (m : PitchResult)
    (h : (MpmPitchDetector.Detect cfg st buffer sr).2 = .pitch m) :
    ∃ peaks,
      MpmPitchDetector.FindPeaks cfg (mpmNsdfList buffer (buffer.length / 2)) = some peaks ∧
      peaks ≠ [] ∧
      m.confidence = (mpmBestPeak (mpmNsdfList buffer (buffer.length / 2)) peaks).2 := by
  by_cases hg : buffer = [] ∨ sr ≤ 0
  · simp [MpmPitchDetector.Detect, hg] at h
  · by_cases ht : castTrunc sr cfg.minFrequency ≥ buffer.length / 2
    · simp [MpmPitchDetector.Detect, hg, ht] at h
    · rcases hfp : MpmPitchDetector.FindPeaks cfg (mpmNsdfList buffer (buffer.length / 2))
          with _ | peaks
      · simp [MpmPitchDetector.Detect, hg, ht, hfp] at h
      · by_cases hpe : peaks = []
        · simp [MpmPitchDetector.Detect, hg, ht, hfp, hpe] at h
        · rcases hpi : MpmPitchDetector.ParabolicInterpolation
              (mpmNsdfList buffer (buffer.length / 2))
              ((mpmBestPeak (mpmNsdfList buffer (buffer.length / 2)) peaks).1 : Int)
              with _ | rt
          · simp [MpmPitchDetector.Detect, hg, ht, hfp, hpe, hpi] at h
          · by_cases hrt : rt ≤ 0
            · simp [MpmPitchDetector.Detect, hg, ht, hfp, hpe, hpi, hrt] at h
            · simp [MpmPitchDetector.Detect, hg, ht, hfp, hpe, hpi, hrt] at h
              exact ⟨peaks, rfl, hpe, by rw [← h]⟩

/-- Full YIN run on the 8-sample alternating frame: the scan accepts `τ = 2`
(CMNDF 0), interpolation refines it to `19/10`, and the result is
`{frequency = 80/19, confidence = 1}`. -/
theorem yinDetect_altBuffer8_eval :
    YinPitchDetector.Detect yinNarrowConfig altBuffer8 8 = .pitch ⟨80/19, 1⟩ := by
  have hr4 : List.range 4 = [0, 1, 2, 3] := rfl
  have hd1 : yinDiff altBuffer8 4 1 = 16 := by
    norm_num [yinDiff, hr4, altBuffer8, bufAt]
  have hd2 : yinDiff altBuffer8 4 2 = 0 := by
    norm_num [yinDiff, hr4, altBuffer8, bufAt]
  have hd3 : yinDiff altBuffer8 4 3 = 16 := by
    norm_num [yinDiff, hr4, altBuffer8, bufAt]
  have hs1 : yinRunningSum altBuffer8 4 1 = 16 := by
    have hr1 : List.range 1 = [0] := rfl
    norm_num [yinRunningSum, hr1, hd1]
  have hs2 : yinRunningSum altBuffer8 4 2 = 16 := by
    have hr2 : List.range 2 = [0, 1] := rfl
    norm_num [yinRunningSum, hr2, hd1, hd2]
  have hs3 : yinRunningSum altBuffer8 4 3 = 32 := by
    have hr3 : List.range 3 = [0, 1, 2] := rfl
    norm_num [yinRunningSum, hr3, hd1, hd2, hd3]
  have hc1 : yinCmndf altBuffer8 4 1 = 1 := by
    norm_num [yinCmndf, hs1, hd1]
  have hc2 : yinCmndf altBuffer8 4 2 = 0 := by
    norm_num [yinCmndf, hs2, hd2]
  have hc3 : yinCmndf altBuffer8 4 3 = 3/2 := by
    norm_num [yinCmndf, hs3, hd3]
  have hscan : yinScan yinNarrowConfig altBuffer8 4 3 2 = some 2 := by
    have hf : (3 : Nat) - 2 = 1 := rfl
    simp only [yinScan, hf, yinScanFuel]
    rw [if_pos (by rw [hc2]; norm_num [yinNarrowConfig])]
  have hinterp : yinInterp altBuffer8 4 2 = some (19/10) := by
    norm_num [yinInterp, hc1, hc2, hc3]
  have hmin : castTrunc 8 yinNarrowConfig.maxFrequency = 2 := by
    have hf : ⌊(8 : ℚ) / 4⌋ = (2 : ℤ) := by norm_num
    simp [castTrunc, yinNarrowConfig, hf]
  have hmax : castTrunc 8 yinNarrowConfig.minFrequency = 3 := by
    have hf : ⌊(8 : ℚ) / (5/2)⌋ = (3 : ℤ) := by norm_num
    simp [castTrunc, yinNarrowConfig, hf]
  have hlen : altBuffer8.length / 2 = 4 := rfl
  have hne : ¬(altBuffer8 = [] ∨ (8 : ℚ) ≤ 0) := by
    intro hcon
    rcases hcon with hcon | hcon
    · exact List.cons_ne_nil _ _ hcon
    · norm_num at hcon
  simp only [YinPitchDetector.Detect, hmin, hmax, hlen, hscan, hinterp]
  rw [if_neg hne, if_neg (by norm_num), if_neg (by norm_num [yinBufferCapacity]),
    if_neg (by norm_num : ¬(19/10 : ℚ) = 0), hc2]
  norm_num

/-- C1 amended: for every returned result, YIN's confidence lies in
`[1 − threshold, 1]` (and is nonnegative whenever `threshold ≤ 1`), and MPM's
confidence lies in `[0, 1]` whenever `threshold ≥ 0`.  (The frequency-range
half of the original claim is refuted by the counterexample.) -/
theorem detector_confidence_bounds (cfgY : YinPitchDetectorConfig)
    (cfgM : MpmPitchDetectorConfig) (st : Nat) (buffer : List ℚ) (sr : ℚ)
    (r m : PitchResult) :
    (YinPitchDetector.Detect cfgY buffer sr = .pitch r →
      1 - cfgY.threshold ≤ r.confidence ∧ r.confidence ≤ 1 ∧
      (cfgY.threshold ≤ 1 → 0 ≤ r.confidence)) ∧
    ((MpmPitchDetector.Detect cfgM st buffer sr).2 = .pitch m → 0 ≤ cfgM.threshold →
      0 ≤ m.confidence ∧ m.confidence ≤ 1) := by
  constructor
  · intro h
    obtain ⟨tau, bt, hs, hi, hb, hr⟩ := yinDetect_pitch_inv cfgY buffer sr r h
    simp only [yinScan] at hs
    obtain ⟨_, _, hcross, _⟩ :=
      yinScanFuel_some_spec cfgY buffer (buffer.length / 2) _ _ _ hs
    have hnn := yinCmndf_nonneg buffer (buffer.length / 2) tau
    subst hr
    refine ⟨?_, ?_, fun h1 => ?_⟩ <;> dsimp only
    · linarith
    · linarith
    · linarith
  · intro h hthr
    obtain ⟨peaks, hfp, hpe, hconf⟩ := mpmDetect_pitch_inv cfgM st buffer sr m h
    have hle1 : (mpmBestPeak (mpmNsdfList buffer (buffer.length / 2)) peaks).2 ≤ 1 := by
      rw [mpmBestPeak_snd_eq]
      exact bufAt_mpmNsdfList_le_one buffer (buffer.length / 2) _
    have hge : cfgM.threshold ≤ (mpmBestPeak (mpmNsdfList buffer (buffer.length / 2)) peaks).2 :=
      le_trans
        (findPeaks_mem_threshold cfgM _ peaks hfp _ (headD_mem_of_ne_nil peaks 0 hpe))
        (mpmBestPeak_ge_head _ peaks)
    rw [hconf]
    exact ⟨le_trans hthr hge, hle1⟩

/-- Witness for the amended C1: both concrete runs, with the bounds checked. -/
theorem detector_confidence_bounds_witness :
    (1 - yinNarrowConfig.threshold ≤ (PitchResult.mk (80/19) 1).confidence ∧
      (PitchResult.mk (80/19) 1).confidence ≤ 1 ∧
      (yinNarrowConfig.threshold ≤ 1 → 0 ≤ (PitchResult.mk (80/19) 1).confidence)) ∧
    (0 ≤ (PitchResult.mk 50 1).confidence ∧ (PitchResult.mk 50 1).confidence ≤ 1) :=
  ⟨(detector_confidence_bounds yinNarrowConfig mpmNarrowConfig 0 altBuffer8 8
      ⟨80/19, 1⟩ ⟨50, 1⟩).1 yinDetect_altBuffer8_eval,
   (detector_confidence_bounds yinNarrowConfig mpmNarrowConfig 0 altBuffer 100
      ⟨80/19, 1⟩ ⟨50, 1⟩).2 (by rw [mpmDetect_altBuffer_eval])
      (by norm_num [mpmNarrowConfig])⟩

/-- C1 counterexample: on the alternating frame with `minFreq = 30`,
`maxFreq = 40`, the MPM detector returns frequency 50 Hz — outside
`[minFreq, maxFreq]` — because peak picking never restricts `τ` to the
configured frequency range. -/
theorem mpm_returns_frequency_outside_range :
    (MpmPitchDetector.Detect mpmNarrowConfig 0 altBuffer 100).2 =
      MpmOutcome.pitch ⟨50, 1⟩ ∧
    ¬ ((50 : ℚ) ≤ mpmNarrowConfig.maxFrequency) := by
  rw [mpmDetect_altBuffer_eval]
  norm_num [mpmNarrowConfig]

/-- C3 counterexample: MPM pre-allocates nothing (its scratch vectors are
constructed empty, a high-water mark of 0), yet on a 10-sample frame `Detect`
resizes the scratch buffers (0 → 5) on the hot path and returns a result,
instead of rejecting the frame. -/
theorem mpm_resizes_scratch_on_hot_path :
    (MpmPitchDetector.Detect mpmNarrowConfig 0 altBuffer 100).1 ≠ 0 ∧
    (MpmPitchDetector.Detect mpmNarrowConfig 0 altBuffer 100).2 ≠ MpmOutcome.noPitch := by
  rw [mpmDetect_altBuffer_eval]
  refine ⟨by norm_num, by simp⟩

/-- C3 amended: YIN rejects (no result, and its pre-allocated scratch is never
touched or grown) every frame whose half-size exceeds the 2048-entry
high-water mark; MPM instead has no size-based rejection at all — every frame
passing the input guards resizes its scratch buffers to the frame's half-size. -/
theorem scratch_highwater_policy (cfgY : YinPitchDetectorConfig)
    (cfgM : MpmPitchDetectorConfig) (st : Nat) (buffer : List ℚ) (sr : ℚ) :
    (buffer.length / 2 > yinBufferCapacity →
      YinPitchDetector.Detect cfgY buffer sr = .noPitch) ∧
    (¬(buffer = [] ∨ sr ≤ 0) → castTrunc sr cfgM.minFrequency < buffer.length / 2 →
      (MpmPitchDetector.Detect cfgM st buffer sr).1 = buffer.length / 2) := by
  constructor
  · intro hcap
    simp only [YinPitchDetector.Detect]
    split
    · rfl
    · split
      · rfl
      · rfl
  · intro hg hmt
    simp only [MpmPitchDetector.Detect]
    rw [if_neg hg, if_neg (by omega)]
    have hsz : (if st ≠ buffer.length / 2 then buffer.length / 2 else st) =
        buffer.length / 2 := by
      split
      · rfl
      · omega
    split
    · exact hsz
    · split
      · exact hsz
      · split
        · exact hsz
        · split
          · exact hsz
          · exact hsz

/-- Witness for the amended C3 at a concrete oversized frame (4098 samples,
half-size 2049 > 2048) and a concrete accepted MPM frame. -/
theorem scratch_highwater_policy_witness :
    YinPitchDetector.Detect {} (List.replicate 4098 0) 44100 = .noPitch ∧
    (MpmPitchDetector.Detect mpmNarrowConfig 0 altBuffer 100).1 = altBuffer.length / 2 := by
  constructor
  · exact (scratch_highwater_policy {} {} 0 (List.replicate 4098 0) 44100).1
      (by rw [List.length_replicate]; norm_num [yinBufferCapacity])
  · exact (scratch_highwater_policy {} mpmNarrowConfig 0 altBuffer 100).2
      (by
        intro h
        rcases h with h | h
        · exact List.cons_ne_nil _ _ h
        · norm_num at h)
      (by
        have hf : ⌊(100 : ℚ) / 30⌋ = (3 : ℤ) := by norm_num
        have hmt : castTrunc 100 mpmNarrowConfig.minFrequency = 3 := by
          simp [castTrunc, mpmNarrowConfig, hf]
        rw [hmt]
        norm_num [altBuffer])

/-- C5: YIN accepts the first `τ ∈ [minTau, maxTau)` whose CMNDF `d'(τ)` is
below the threshold (the first crossing, not the dip minimum), returning no
result when no `τ` in the range crosses; every returned result has
`frequency = sampleRate / τ*` (the refined tau) and
`confidence = 1 − d'(τ)`, which lies in `[1 − threshold, 1]`. -/
theorem yin_first_crossing_spec (cfg : YinPitchDetectorConfig) (buffer : List ℚ) (sr : ℚ) :
    ((∀ t, castTrunc sr cfg.maxFrequency ≤ t → t < castTrunc sr cfg.minFrequency →
        ¬ yinCmndf buffer (buffer.length / 2) t < cfg.threshold) →
      YinPitchDetector.Detect cfg buffer sr = .noPitch) ∧
    (∀ r, YinPitchDetector.Detect cfg buffer sr = .pitch r →
      ∃ tau bt,
        castTrunc sr cfg.maxFrequency ≤ tau ∧ tau < castTrunc sr cfg.minFrequency ∧
        yinCmndf buffer (buffer.length / 2) tau < cfg.threshold ∧
        (∀ t, castTrunc sr cfg.maxFrequency ≤ t → t < tau →
          ¬ yinCmndf buffer (buffer.length / 2) t < cfg.threshold) ∧
        yinInterp buffer (buffer.length / 2) tau = some bt ∧
        r.frequency = sr / bt ∧
        r.confidence = 1 - yinCmndf buffer (buffer.length / 2) tau ∧
        1 - cfg.threshold ≤ r.confidence ∧ r.confidence ≤ 1) := by
  constructor
  · intro hall
    have hnone : yinScan cfg buffer (buffer.length / 2) (castTrunc sr cfg.minFrequency)
        (castTrunc sr cfg.maxFrequency) = none := by
      simp only [yinScan]
      apply yinScanFuel_none_of
      intro t h1 h2
      exact hall t h1 (by omega)
    simp [YinPitchDetector.Detect, hnone, ite_self]
  · intro r h
    obtain ⟨tau, bt, hs, hi, hb, hr⟩ := yinDetect_pitch_inv cfg buffer sr r h
    simp only [yinScan] at hs
    obtain ⟨h1, h2, hcross, hfirst⟩ :=
      yinScanFuel_some_spec cfg buffer (buffer.length / 2) _ _ _ hs
    have hnn := yinCmndf_nonneg buffer (buffer.length / 2) tau
    subst hr
    refine ⟨tau, bt, h1, by omega, hcross, hfirst, hi, rfl, rfl, ?_, ?_⟩ <;>
      dsimp only <;> linarith

/-- Witness for C5 at the 8-sample alternating frame. -/
theorem yin_first_crossing_spec_witness :
    ∃ tau bt,
      castTrunc 8 yinNarrowConfig.maxFrequency ≤ tau ∧
      tau < castTrunc 8 yinNarrowConfig.minFrequency ∧
      yinCmndf altBuffer8 (altBuffer8.length / 2) tau < yinNarrowConfig.threshold ∧
      (∀ t, castTrunc 8 yinNarrowConfig.maxFrequency ≤ t → t < tau →
        ¬ yinCmndf altBuffer8 (altBuffer8.length / 2) t < yinNarrowConfig.threshold) ∧
      yinInterp altBuffer8 (altBuffer8.length / 2) tau = some bt ∧
      (PitchResult.mk (80/19) 1).frequency = 8 / bt ∧
      (PitchResult.mk (80/19) 1).confidence =
        1 - yinCmndf altBuffer8 (altBuffer8.length / 2) tau ∧
      1 - yinNarrowConfig.threshold ≤ (PitchResult.mk (80/19) 1).confidence ∧
      (PitchResult.mk (80/19) 1).confidence ≤ 1 :=
  (yin_first_crossing_spec yinNarrowConfig altBuffer8 8).2 ⟨80/19, 1⟩ yinDetect_altBuffer8_eval

/-- A mapped sum all of whose images vanish is zero. -/
theorem sum_map_zero {α : Type} (l : List α) (f : α → ℚ) (h : ∀ a ∈ l, f a = 0) :
    (l.map f).sum = 0 :=
  List.sum_eq_zero (fun x hx => by
    obtain ⟨a, ha, rfl⟩ := List.mem_map.mp hx
    exact h a ha)

/-- Reading an all-zero frame always yields 0. -/
theorem bufAt_replicate_zero (n i : Nat) : bufAt (List.replicate n (0 : ℚ)) i = 0 := by
  rw [bufAt, List.getD_eq_getElem?_getD, List.getElem?_replicate]
  split <;> rfl

/-- The difference function vanishes on silence. -/
theorem yinDiff_replicate_zero (n H tau : Nat) :
    yinDiff (List.replicate n (0 : ℚ)) H tau = 0 := by
  unfold yinDiff
  exact sum_map_zero _ _ (fun i _ => by rw [bufAt_replicate_zero, bufAt_replicate_zero]; ring)

/-- The CMNDF is identically 1 on silence (the running sum is zero). -/
theorem yinCmndf_replicate_zero (n H tau : Nat) :
    yinCmndf (List.replicate n (0 : ℚ)) H tau = 1 := by
  have hs : yinRunningSum (List.replicate n (0 : ℚ)) H tau = 0 := by
    unfold yinRunningSum
    exact sum_map_zero _ _ (fun k _ => yinDiff_replicate_zero n H (k + 1))
  unfold yinCmndf
  split
  · rfl
  · simp [hs]

/-- The NSDF is identically 0 on silence (`r(τ) = 0` is not `> 0`). -/
theorem mpmNsdf_replicate_zero (n H tau : Nat) :
    mpmNsdf (List.replicate n (0 : ℚ)) H tau = 0 := by
  unfold mpmNsdf mpmAcf mpmR
  rw [sum_map_zero _ _ (fun j _ => by simp [bufAt_replicate_zero]),
    sum_map_zero _ _ (fun j _ => by simp [bufAt_replicate_zero]),
    sum_map_zero _ _ (fun j _ => by simp [bufAt_replicate_zero])]
  norm_num

/-- Every read of the silent-frame NSDF buffer is 0. -/
theorem bufAt_mpmNsdfList_replicate_zero (n H p : Nat) :
    bufAt (mpmNsdfList (List.replicate n (0 : ℚ)) H) p = 0 := by
  by_cases hp : p < H
  · simp [bufAt, mpmNsdfList, List.getD_eq_getElem?_getD, List.getElem?_map,
      List.getElem?_range, hp, mpmNsdf_replicate_zero]
  · have hn : (List.range H)[p]? = none := List.getElem?_eq_none (by simpa using hp)
    simp [bufAt, mpmNsdfList, List.getD_eq_getElem?_getD, List.getElem?_map, hn]

/-- Silence produces no positive-going zero crossings. -/
theorem mpmZeroCrossings_silence (n H : Nat) :
    mpmZeroCrossings (mpmNsdfList (List.replicate n (0 : ℚ)) H) = [] := by
  unfold mpmZeroCrossings
  rw [List.filter_eq_nil_iff]
  intro a _
  simp [bufAt_mpmNsdfList_replicate_zero]

/-- On silence, `FindPeaks` takes the out-of-bounds path (empty crossing list,
`size_t` loop bound wraps around). -/
theorem findPeaks_silence (cfg : MpmPitchDetectorConfig) (n H : Nat) :
    MpmPitchDetector.FindPeaks cfg (mpmNsdfList (List.replicate n (0 : ℚ)) H) = none := by
  simp [MpmPitchDetector.FindPeaks, mpmZeroCrossings_silence]

/-- Silence never crosses the YIN threshold (CMNDF is identically 1), so YIN
safely returns no result whenever `threshold ≤ 1`. -/
theorem yinDetect_silence (cfg : YinPitchDetectorConfig) (n : Nat) (sr : ℚ)
    (hthr : cfg.threshold ≤ 1) :
    YinPitchDetector.Detect cfg (List.replicate n (0 : ℚ)) sr = .noPitch := by
  have hnone : ∀ H maxT minT, yinScan cfg (List.replicate n (0 : ℚ)) H maxT minT = none := by
    intro H maxT minT
    simp only [yinScan]
    apply yinScanFuel_none_of
    intro t _ _
    rw [yinCmndf_replicate_zero]
    exact not_lt.mpr hthr
  simp only [YinPitchDetector.Detect, hnone, ite_self]

/-- On a silent frame that passes the input guards, MPM reaches the
out-of-bounds read in `FindPeaks`. -/
theorem mpmDetect_silence_oob (cfg : MpmPitchDetectorConfig) (st n : Nat) (sr : ℚ)
    (hne : n ≠ 0) (hsr : 0 < sr) (hmt : castTrunc sr cfg.minFrequency < n / 2) :
    (MpmPitchDetector.Detect cfg st (List.replicate n (0 : ℚ)) sr).2 = .oob := by
  have hg : ¬(List.replicate n (0 : ℚ) = [] ∨ sr ≤ 0) := by
    intro hcon
    rcases hcon with hcon | hcon
    · rw [List.replicate_eq_nil_iff] at hcon
      exact hne hcon
    · exact absurd hcon (not_le.mpr hsr)
  have hfp : ∀ H, MpmPitchDetector.FindPeaks cfg
      (mpmNsdfList (List.replicate n (0 : ℚ)) H) = none := findPeaks_silence cfg n
  simp only [MpmPitchDetector.Detect, List.length_replicate, hfp]
  rw [if_neg hg, if_neg (not_le.mpr hmt)]

/-- C2 (code bug): on a 2048-sample all-zero frame at 44100 Hz with the default
configurations, YIN safely returns no result, but MPM's `FindPeaks` reads
`zeroCrossings[0]` of an empty vector (the `size_t` loop bound
`zeroCrossings.size() - 1` wraps to `SIZE_MAX`), an out-of-bounds access
instead of the claimed safe no-result return. -/
theorem mpm_silent_frame_out_of_bounds :
    YinPitchDetector.Detect {} (List.replicate 2048 (0 : ℚ)) 44100 = .noPitch ∧
    (MpmPitchDetector.Detect {} 0 (List.replicate 2048 (0 : ℚ)) 44100).2 = .oob := by
  constructor
  · exact yinDetect_silence {} 2048 44100 (by norm_num)
  · refine mpmDetect_silence_oob {} 0 2048 44100 (by omega) (by norm_num) ?_
    show castTrunc 44100 80 < 1024
    have hf : ⌊(44100 : ℚ) / 80⌋ = (551 : ℤ) := by norm_num
    simp [castTrunc, hf]

/-- Sorting ascendingly is invariant under permutation. -/
theorem sortQ_eq_of_perm (l l' : List ℚ) (h : l.Perm l') : sortQ l = sortQ l' := by
  unfold sortQ
  exact List.eq_of_perm_of_sorted
    (((List.perm_insertionSort _ l).trans h).trans (List.perm_insertionSort _ l').symm)
    (List.sorted_insertionSort _ l) (List.sorted_insertionSort _ l')

/-- C8: for every update sequence, `MedianFilter::GetStabilized` returns,
independently for frequency and confidence, the median of exactly the
`sampleCount = min (#updates) windowSize` most recently written samples — the
middle sorted element for odd counts, the mean of the two middle sorted
elements for even counts. -/
theorem median_filter_matches_spec (cfg : MedianFilterConfig) (us : List PitchResult)
    (hW : 1 ≤ cfg.windowSize) :
    MedianFilter.GetStabilized (MedianFilter.applyUpdates (MedianFilter.init cfg) us) =
      medianOfLastSamplesSpec cfg us := by
  obtain ⟨hcfg, hlen, hcnt, hwi, hwin⟩ := medianFilter_invariant cfg hW us
  generalize hsdef : MedianFilter.applyUpdates (MedianFilter.init cfg) us = s at *
  have hperm : (s.window.take s.sampleCount).Perm
      (lastSamples us (min us.length cfg.windowSize)) := by
    rcases hwin with ⟨hlt, hwnd⟩ | ⟨hge, hrot⟩
    · have hmin : min us.length cfg.windowSize = us.length := by omega
      rw [hcnt, hwnd, hmin, List.take_left]
      unfold lastSamples
      rw [Nat.sub_self, List.drop_zero]
    · have hmin : min us.length cfg.windowSize = cfg.windowSize := by omega
      rw [hcnt, hmin, List.take_of_length_le (by rw [hlen])]
      unfold lastSamples
      rw [← hrot]
      exact (List.rotate_perm s.window s.writeIndex).symm
  have hlastlen : (lastSamples us (min us.length cfg.windowSize)).length =
      min us.length cfg.windowSize := by
    unfold lastSamples
    rw [List.length_drop]
    omega
  have hfreq : sortQ ((s.window.take s.sampleCount).map PitchResult.frequency) =
      sortQ ((lastSamples us (min us.length cfg.windowSize)).map PitchResult.frequency) :=
    sortQ_eq_of_perm _ _ (hperm.map _)
  have hconf : sortQ ((s.window.take s.sampleCount).map PitchResult.confidence) =
      sortQ ((lastSamples us (min us.length cfg.windowSize)).map PitchResult.confidence) :=
    sortQ_eq_of_perm _ _ (hperm.map _)
  rw [hcnt] at hfreq hconf
  simp only [MedianFilter.GetStabilized, MedianFilter.ComputeMedian, medianOfLastSamplesSpec,
    medianOfValues, hcnt, hfreq, hconf, List.length_map, hlastlen]
  by_cases h0 : min us.length cfg.windowSize = 0
  · rw [if_pos h0, if_pos h0]
  · rw [if_neg h0, if_neg h0]
    by_cases hpar : min us.length cfg.windowSize % 2 = 0
    · simp only [if_pos hpar, PitchResult.mk.injEq]
      constructor <;> ring
    · simp only [if_neg hpar]

/-- Witness for C8 at a concrete window size and update sequence. -/
theorem median_filter_matches_spec_witness :
    MedianFilter.GetStabilized (MedianFilter.applyUpdates (MedianFilter.init ⟨5⟩)
        [⟨1, 1⟩, ⟨2, 2⟩]) = medianOfLastSamplesSpec ⟨5⟩ [⟨1, 1⟩, ⟨2, 2⟩] :=
  median_filter_matches_spec ⟨5⟩ [⟨1, 1⟩, ⟨2, 2⟩] (by norm_num)

/-- C9: for every `HybridPitchDetectorConfig`, the YIN configuration actually
used by the inner YIN detector has threshold forced to 0.10, minFrequency to
80 Hz and maxFrequency to 1200 Hz; the caller's values in `config.yinConfig`
are ignored. -/
theorem hybrid_constructor_overrides_yin_config (config : HybridPitchDetectorConfig) :
    hybridTunedYinConfig config =
      { threshold := 1/10, minFrequency := 80, maxFrequency := 1200 } := rfl

/-- C10: every stabilizer (EMA, Median, HybridStab) returns the sentinel
`{frequency = 0, confidence = 0}` from `GetStabilized` when called before the
first `Update` after construction or after `Reset`, and the sentinel's
frequency is not positive. -/
theorem stabilizers_sentinel_before_update_and_after_reset :
    ∀ (ecfg : EMAConfig) (es : EMAState) (mcfg : MedianFilterConfig)
      (ms : MedianFilterState) (hcfg : HybridStabilizerConfig) (hs : HybridStabilizerState),
      ExponentialMovingAverage.GetStabilized (ExponentialMovingAverage.init ecfg) = ⟨0, 0⟩ ∧
      ExponentialMovingAverage.GetStabilized (ExponentialMovingAverage.Reset es) = ⟨0, 0⟩ ∧
      MedianFilter.GetStabilized (MedianFilter.init mcfg) = ⟨0, 0⟩ ∧
      MedianFilter.GetStabilized (MedianFilter.Reset ms) = ⟨0, 0⟩ ∧
      HybridStabilizer.GetStabilized (HybridStabilizer.init hcfg) = ⟨0, 0⟩ ∧
      HybridStabilizer.GetStabilized (HybridStabilizer.Reset hs) = ⟨0, 0⟩ ∧
      ¬ ((⟨0, 0⟩ : PitchResult).frequency > 0) := by
  intro ecfg es mcfg ms hcfg hs
  refine ⟨rfl, rfl, ?_, ?_, rfl, rfl, ?_⟩
  · simp [MedianFilter.GetStabilized, MedianFilter.ComputeMedian, MedianFilter.init]
  · simp [MedianFilter.GetStabilized, MedianFilter.ComputeMedian, MedianFilter.Reset]
  · norm_num

/-- The code's `IsHarmonic` check at `freq2 = f/k`, rephrased with the spec's
operand order. -/
theorem isHarmonic_at_div_iff (cfg : HybridPitchDetectorConfig) (f : ℚ) (k : ℕ) :
    HybridPitchDetector.IsHarmonic cfg f (f / k) k = true ↔
      |f - (k : ℚ) * (f / k)| ≤ cfg.harmonicTolerance * ((k : ℚ) * (f / k)) := by
  simp only [HybridPitchDetector.IsHarmonic, decide_eq_true_eq]
  rw [mul_comm (f / (k : ℚ)) (k : ℚ), mul_comm ((k : ℚ) * (f / k)) cfg.harmonicTolerance]

/-- The code's nested-if harmonic rejection equals the spec's ordered
first-match over `k ∈ {2, 3, 4}`. -/
theorem applyHarmonicRejection_eq_spec (cfg : HybridPitchDetectorConfig) (f : ℚ) :
    HybridPitchDetector.ApplyHarmonicRejection cfg f = harmonicRejectionSpec cfg f := by
  have h2 := isHarmonic_at_div_iff cfg f 2
  have h3 := isHarmonic_at_div_iff cfg f 3
  have h4 := isHarmonic_at_div_iff cfg f 4
  push_cast at h2 h3 h4
  by_cases q2 : 80 ≤ f / 2 ∧ f / 2 ≤ 400 ∧
      |f - (2 : ℚ) * (f / 2)| ≤ cfg.harmonicTolerance * ((2 : ℚ) * (f / 2))
  · simp [HybridPitchDetector.ApplyHarmonicRejection, harmonicRejectionSpec, List.find?,
      Nat.cast_ofNat, h2, q2, q2.1, q2.2.1, q2.2.2]
  · by_cases q3 : 80 ≤ f / 3 ∧ f / 3 ≤ 400 ∧
        |f - (3 : ℚ) * (f / 3)| ≤ cfg.harmonicTolerance * ((3 : ℚ) * (f / 3))
    · simp [HybridPitchDetector.ApplyHarmonicRejection, harmonicRejectionSpec, List.find?,
        Nat.cast_ofNat, h2, h3, q2, q3]
    · by_cases q4 : 80 ≤ f / 4 ∧ f / 4 ≤ 400 ∧
          |f - (4 : ℚ) * (f / 4)| ≤ cfg.harmonicTolerance * ((4 : ℚ) * (f / 4))
      · simp [HybridPitchDetector.ApplyHarmonicRejection, harmonicRejectionSpec, List.find?,
          Nat.cast_ofNat, h2, h3, h4, q2, q3, q4]
      · simp [HybridPitchDetector.ApplyHarmonicRejection, harmonicRejectionSpec, List.find?,
          Nat.cast_ofNat, h2, h3, h4, q2, q3, q4]

/-- C6: hybrid arbitration.  A confident YIN result (confidence at or above
`yinConfidenceThreshold`) is selected without invoking MPM; otherwise MPM is
invoked and its result selected when present; when MPM returns nothing but YIN
returned a low-confidence result, the YIN result is selected; when both return
nothing, `Detect` returns no result.  (The boolean component records whether
`mpmDetector->Detect` was invoked.) -/
theorem hybrid_arbitration_cases (cfg : HybridPitchDetectorConfig)
    (yinResult mpmResult : Option PitchResult) :
    (∀ y, yinResult = some y → cfg.yinConfidenceThreshold ≤ y.confidence →
      hybridSelect cfg yinResult mpmResult = (some y, false)) ∧
    (∀ y, yinResult = some y → y.confidence < cfg.yinConfidenceThreshold →
      ∀ m, mpmResult = some m → hybridSelect cfg yinResult mpmResult = (some m, true)) ∧
    (∀ y, yinResult = some y → y.confidence < cfg.yinConfidenceThreshold →
      mpmResult = none → hybridSelect cfg yinResult mpmResult = (some y, true)) ∧
    (yinResult = none → ∀ m, mpmResult = some m →
      hybridSelect cfg yinResult mpmResult = (some m, true)) ∧
    (yinResult = none → mpmResult = none →
      (hybridDetectWith cfg yinResult mpmResult).1 = none) := by
  refine ⟨?_, ?_, ?_, ?_, ?_⟩
  · rintro y rfl hconf
    simp [hybridSelect, ge_iff_le, hconf]
  · rintro y rfl hconf m rfl
    simp [hybridSelect, ge_iff_le, not_le.mpr hconf]
  · rintro y rfl hconf rfl
    simp [hybridSelect, ge_iff_le, not_le.mpr hconf]
  · rintro rfl m rfl
    simp [hybridSelect]
  · rintro rfl rfl
    simp [hybridDetectWith, hybridSelect]

/-- Witness for C6 at a concrete confident YIN result. -/
theorem hybrid_arbitration_cases_witness :
    hybridSelect ⟨4/5, true, 1/20, {}, {}⟩ (some ⟨440, 9/10⟩) none =
      (some ⟨440, 9/10⟩, false) :=
  (hybrid_arbitration_cases ⟨4/5, true, 1/20, {}, {}⟩ (some ⟨440, 9/10⟩) none).1
    ⟨440, 9/10⟩ rfl (by norm_num)

/-- C7: with `enableHarmonicRejection` on and a result selected, the final
result's frequency is the harmonic-rejected frequency when that differs from
the selected frequency by more than 0.1 Hz and the original frequency
otherwise; the confidence field is copied through unmodified; and the
harmonic-rejection function is the ordered `k ∈ {2, 3, 4}` first-match of
`f/k ∈ [80, 400]` with `|f − k·(f/k)| ≤ tolerance·k·(f/k)`. -/
theorem hybrid_harmonic_rejection_behaviour (cfg : HybridPitchDetectorConfig)
    (yinResult mpmResult : Option PitchResult) (r : PitchResult)
    (he : cfg.enableHarmonicRejection = true)
    (hsel : (hybridSelect cfg yinResult mpmResult).1 = some r) :
    (hybridDetectWith cfg yinResult mpmResult).1 =
      some ⟨if |HybridPitchDetector.ApplyHarmonicRejection cfg r.frequency - r.frequency| > 1/10
            then HybridPitchDetector.ApplyHarmonicRejection cfg r.frequency
            else r.frequency,
            r.confidence⟩ ∧
    HybridPitchDetector.ApplyHarmonicRejection cfg r.frequency =
      harmonicRejectionSpec cfg r.frequency := by
  refine ⟨?_, applyHarmonicRejection_eq_spec cfg r.frequency⟩
  simp only [hybridDetectWith, hsel, he, if_true]
  split
  · rfl
  · rfl

/-- Witness for C7 at a concrete selected result. -/
theorem hybrid_harmonic_rejection_behaviour_witness :
    (hybridDetectWith ⟨4/5, true, 1/20, {}, {}⟩ (some ⟨440, 9/10⟩) none).1 =
      some ⟨if |HybridPitchDetector.ApplyHarmonicRejection ⟨4/5, true, 1/20, {}, {}⟩
                  (PitchResult.mk 440 (9/10)).frequency -
                (PitchResult.mk 440 (9/10)).frequency| > 1/10
            then HybridPitchDetector.ApplyHarmonicRejection ⟨4/5, true, 1/20, {}, {}⟩
                  (PitchResult.mk 440 (9/10)).frequency
            else (PitchResult.mk 440 (9/10)).frequency,
            (PitchResult.mk 440 (9/10)).confidence⟩ ∧
    HybridPitchDetector.ApplyHarmonicRejection ⟨4/5, true, 1/20, {}, {}⟩
        (PitchResult.mk 440 (9/10)).frequency =
      harmonicRejectionSpec ⟨4/5, true, 1/20, {}, {}⟩ (PitchResult.mk 440 (9/10)).frequency :=
  hybrid_harmonic_rejection_behaviour ⟨4/5, true, 1/20, {}, {}⟩ (some ⟨440, 9/10⟩) none
    ⟨440, 9/10⟩ rfl (by norm_num [hybridSelect])

/-- C4 (code bug): the parabolic-interpolation code has no near-zero-denominator
fallback.  On the NSDF buffer `[0, 1, 2, 3]` at `τ = 1` the denominator
`2·(2·s1 − s2 − s0) = 2·(2·1 − 2 − 0)` is exactly zero, yet the code divides by
it (IEEE: a non-finite adjustment) instead of falling back to the integer `τ`. -/
theorem mpm_parabolic_divides_by_zero_denominator :
    MpmPitchDetector.ParabolicInterpolation [0, 1, 2, 3] 1 = none ∧
    2 * (2 * bufAt [0, 1, 2, 3] 1 - bufAt [0, 1, 2, 3] 2 - bufAt [0, 1, 2, 3] 0) = 0 := by
  have hb0 : bufAt ([0, 1, 2, 3] : List ℚ) 0 = 0 := rfl
  have hb1 : bufAt ([0, 1, 2, 3] : List ℚ) 1 = 1 := rfl
  have hb2 : bufAt ([0, 1, 2, 3] : List ℚ) 2 = 2 := rfl
  have e0 : ((1 : Int) - 1).toNat = 0 := rfl
  have e1 : (1 : Int).toNat = 1 := rfl
  have e2 : ((1 : Int) + 1).toNat = 2 := rfl
  constructor
  · simp only [MpmPitchDetector.ParabolicInterpolation, e0, e1, e2, hb0, hb1, hb2]
    norm_num
  · rw [hb0, hb1, hb2]; norm_num
